import Mathlib

/-!
Verification of the text-embeddings similarity-search pipeline.

The source program ingests StackOverflow posts into a search index
(`index_data` / `index_batch`), embedding each kept record's title, and
answers free-text queries (`handle_query`) by embedding the query and
scoring every stored record with `cosineSimilarity(q, v) + 1.0`.

Vectors are modelled as lists of rationals; scores live in the real
numbers. The embedding provider is an external collaborator and is a
parameter everywhere. The record store keeps the single target index as
a list of stored items, together with an observation log of the bulk
calls and embedding calls a run makes.
-/

namespace ES

/-- A vector as handled by the pipeline: the components of an embedding. -/
abbrev Vec := List ℚ

/-- Dot product of two vectors, pairing componentwise (extra components of
the longer vector are ignored, as in a componentwise loop over pairs). -/
def dotQ : Vec → Vec → ℚ
  | x :: a, y :: b => x * y + dotQ a b
  | _, _ => 0

/-- Modelled from the spec: the Euclidean magnitude of a vector,
`sqrt(sum(a[i]^2))`; the scorer itself is executed inside the record
store and its code is not part of this repository. -/
noncomputable def magnitude (a : Vec) : ℝ :=
  Real.sqrt ((dotQ a a : ℚ) : ℝ)

/-- Modelled from the spec: the record store's `cosineSimilarity` scorer,
`dot(a,b) / (|a| * |b|)`, returning `0` when either magnitude is exactly
zero. Its implementation lives inside the record store, not in this
repository's sources. -/
noncomputable def cosineSimilarity (a b : Vec) : ℝ :=
  if dotQ a a = 0 ∨ dotQ b b = 0 then 0
  else ((dotQ a b : ℚ) : ℝ) / (magnitude a * magnitude b)

/-- The cosine formula exactly as the spec writes it:
`sum(a[i]*b[i]) / (sqrt(sum(a[i]^2)) * sqrt(sum(b[i]^2)))`. -/
noncomputable def cosineFormulaSpec (a b : Vec) : ℝ :=
  ((((a.zip b).map fun p => p.1 * p.2).sum : ℚ) : ℝ) /
    (Real.sqrt (((a.map fun x => x * x).sum : ℚ) : ℝ) *
      Real.sqrt (((b.map fun x => x * x).sum : ℚ) : ℝ))

/-- A source record parsed from one line of the data file: the fields the
pipeline reads (`type`, `title`) together with the stored `body`; other
metadata is passed through opaquely and plays no role here. -/
structure Doc where
  type : String
  title : String
  body : String
deriving DecidableEq, Repr

/-- A persisted record: the source document with its title embedding
attached (`title_vector`). -/
structure Item where
  doc : Doc
  vector : Vec
deriving DecidableEq, Repr

/-- The record store, reduced to the single target index: whether the
index exists, its stored items, and whether a refresh has been issued
since the last write. -/
structure Store where
  created : Bool
  items : List Item
  refreshed : Bool
deriving DecidableEq, Repr

/-- The state threaded through one ingestion run: the store plus an
observation log of the bulk-upsert calls made and of the title lists
passed to the embedding provider. -/
structure RunState where
  store : Store
  calls : List (List Item)
  embeds : List (List String)
deriving DecidableEq, Repr

/-- The ways an ingestion run can abort, mirroring the exceptions the
source can raise: `json.loads` on a malformed line, a failing embedding
provider call, and `title_vectors[i]` past the end of the returned list. -/
inductive IngestError where
  | jsonError
  | embedError
  | indexError
deriving DecidableEq, Repr

/-- The embedding provider `embed_text`: external collaborator; `none`
models a raised exception. -/
abbrev Embedder := List String → Option (List Vec)

/-- A well-behaved provider: returns one vector per input text. -/
def EmbedOk (e : Embedder) : Prop :=
  ∀ ts, ∃ vs, e ts = some vs ∧ vs.length = ts.length

/-- One flush (`index_batch`): extract the titles in order, call the
provider, attach `title_vectors[i]` to doc `i`, and bulk-upsert the
requests. A provider exception or a missing vector aborts before the
bulk call. -/
def index_batch (e : Embedder) (docs : List Doc) (rs : RunState) :
    RunState × Option IngestError :=
  let titles := docs.map (·.title)
  let rs1 := { rs with embeds := rs.embeds ++ [titles] }
  match e titles with
  | none => (rs1, some .embedError)
  | some vecs =>
    if docs.length ≤ vecs.length then
      let requests := (docs.zip vecs).map fun p => Item.mk p.1 p.2
      ({ rs1 with
          store := { rs1.store with items := rs1.store.items ++ requests }
          calls := rs1.calls ++ [requests] }, none)
    else (rs1, some .indexError)

/-- The streaming loop of `index_data`: parse each line (a `none` line is
one `json.loads` rejects and aborts the run), drop records whose type is
not `question`, count kept records, flush whenever the running count
reaches a multiple of the batch size, and flush any final partial batch,
then refresh the index. -/
def ingestLoop (e : Embedder) (B : Nat) :
    List (Option Doc) → List Doc → Nat → RunState → RunState × Option IngestError
  | [], docs, _, rs =>
    if docs.isEmpty then
      ({ rs with store := { rs.store with refreshed := true } }, none)
    else
      match index_batch e docs rs with
      | (rs1, none) => ({ rs1 with store := { rs1.store with refreshed := true } }, none)
      | (rs1, some err) => (rs1, some err)
  | line :: rest, docs, count, rs =>
    match line with
    | none => (rs, some .jsonError)
    | some d =>
      if d.type ≠ "question" then ingestLoop e B rest docs count rs
      else
        let docs1 := docs ++ [d]
        let count1 := count + 1
        if count1 % B = 0 then
          match index_batch e docs1 rs with
          | (rs1, none) => ingestLoop e B rest [] count1 rs1
          | (rs1, some err) => (rs1, some err)
        else ingestLoop e B rest docs1 count1 rs

/-- The whole ingestion run `index_data`: drop the target index if
present (`ignore=[404]`), recreate it fresh from the declared schema,
then stream the data file through `ingestLoop`. -/
def index_data (e : Embedder) (B : Nat) (lines : List (Option Doc)) (s : Store) :
    RunState × Option IngestError :=
  let s1 : Store := { s with created := false, items := [], refreshed := false }
  let s2 : Store := { s1 with created := true }
  ingestLoop e B lines [] 0 ⟨s2, [], []⟩

/-- The records `index_data` keeps: those whose `type` is `question`. -/
def keptDocs (stream : List Doc) : List Doc :=
  stream.filter fun d => decide (d.type = "question")

/-- Consecutive chunks of size `B` (size `max B 1`, so the function
terminates for every `B`): the batches a run of the loop flushes. -/
def chunksOf (B : Nat) : List Doc → List (List Doc)
  | [] => []
  | d :: l =>
    ((d :: l).take (max B 1)) :: chunksOf B ((d :: l).drop (max B 1))
termination_by l => l.length
decreasing_by
  simp only [List.length_drop, List.length_cons]
  omega

/-- One search hit: the stored record it came from and the relevance
score the store reports for it. -/
structure Hit where
  item : Item
  score : ℝ

/-- Descending order on hits: an earlier hit scores at least as high. -/
def hitDesc (h1 h2 : Hit) : Prop := h2.score ≤ h1.score

noncomputable instance : DecidableRel hitDesc :=
  fun a b => inferInstanceAs (Decidable (b.score ≤ a.score))

/-- Modelled from the spec: the record store's `script_score` search. The
store's query engine (not this repository's code) scores every stored
record with `cosineSimilarity(params.query_vector, doc.title_vector) + 1.0`
and returns the top `k` by descending score. -/
noncomputable def scriptScoreSearch (q : Vec) (k : Nat) (items : List Item) : List Hit :=
  (List.insertionSort hitDesc
    (items.map fun it => Hit.mk it (cosineSimilarity q it.vector + 1))).take k

/-- The query pipeline `handle_query`: embed the query text, take the
single resulting vector, and issue the script-score search; a provider
failure or an empty embedding list aborts the query (`none`). -/
noncomputable def handle_query (e : Embedder) (query : String) (k : Nat)
    (items : List Item) : Option (List Hit) :=
  match e [query] with
  | some (qv :: _) => some (scriptScoreSearch qv k items)
  | _ => none

/-- The run state after one successful flush writing `reqs`, whose title
list `titles` was sent to the provider. -/
def flushedState (rs : RunState) (reqs : List Item) (titles : List String) : RunState where
  store := { rs.store with items := rs.store.items ++ reqs }
  calls := rs.calls ++ [reqs]
  embeds := rs.embeds ++ [titles]

/-- The run state after the final `indices.refresh`. -/
def refreshedState (rs : RunState) : RunState :=
  { rs with store := { rs.store with refreshed := true } }

/-- A sample question record, as a line of the data file parses it. -/
def qd1 : Doc := Doc.mk "question" "t1" "b1"

/-- A second sample question record. -/
def qd2 : Doc := Doc.mk "question" "t2" "b2"

/-- A third sample question record. -/
def qd3 : Doc := Doc.mk "question" "t3" "b3"

/-- A sample answer record, which ingestion must drop. -/
def ad1 : Doc := Doc.mk "answer" "t4" "b4"

/-- A trivial well-behaved embedding provider for concrete runs. -/
def e1 : Embedder := fun ts => some (ts.map fun _ => [1])

/-- A provider whose every call fails. -/
def eFail : Embedder := fun _ => none

/-- An initial store with no index. -/
def store0 : Store := Store.mk false [] false

/-- A provider that fails exactly on the title list ["t2"] and otherwise
returns one vector per input: a failure at one specific batch. -/
def e2 : Embedder := fun ts => if ts = ["t2"] then none else some (ts.map fun _ => [1])

lemma dotQ_eq_zip_sum : ∀ a b : Vec, dotQ a b = ((a.zip b).map fun p => p.1 * p.2).sum := by
  intro a
  induction a with
  | nil => intro b; simp [dotQ]
  | cons x a ih =>
    intro b
    cases b with
    | nil => simp [dotQ]
    | cons y b => simp [dotQ, ih]

lemma dotQ_self_eq_sumsq (a : Vec) : dotQ a a = (a.map fun x => x * x).sum := by
  induction a with
  | nil => simp [dotQ]
  | cons x a ih => simp [dotQ, ih]

lemma dotQ_comm : ∀ a b : Vec, dotQ a b = dotQ b a := by
  intro a
  induction a with
  | nil => intro b; cases b <;> simp [dotQ]
  | cons x a ih =>
    intro b
    cases b with
    | nil => simp [dotQ]
    | cons y b => simp [dotQ, ih, mul_comm]

lemma dotQ_self_nonneg (a : Vec) : 0 ≤ dotQ a a := by
  induction a with
  | nil => simp [dotQ]
  | cons x a ih =>
    have hx : 0 ≤ x * x := mul_self_nonneg x
    simp only [dotQ]
    linarith

lemma magnitude_eq_zero_iff (a : Vec) : magnitude a = 0 ↔ dotQ a a = 0 := by
  unfold magnitude
  rw [Real.sqrt_eq_zero']
  constructor
  · intro h
    have h2 : (0 : ℚ) ≤ dotQ a a := dotQ_self_nonneg a
    have h1 : dotQ a a ≤ 0 := by exact_mod_cast h
    linarith
  · intro h
    rw [h]
    simp

lemma chunksOf_nil (B : Nat) : chunksOf B [] = [] := by
  rw [chunksOf]

lemma chunksOf_eq_cons (B : Nat) {l : List Doc} (h : l ≠ []) :
    chunksOf B l = l.take (max B 1) :: chunksOf B (l.drop (max B 1)) := by
  cases l with
  | nil => exact absurd rfl h
  | cons d l => rw [chunksOf]

lemma chunksOf_small (B : Nat) {l : List Doc} (hB : 0 < B) (hne : l ≠ [])
    (hlen : l.length ≤ B) : chunksOf B l = [l] := by
  have hmax : max B 1 = B := by omega
  rw [chunksOf_eq_cons B hne, hmax, List.take_of_length_le hlen,
    List.drop_eq_nil_of_le hlen, chunksOf_nil]

lemma chunksOf_append (B : Nat) (hB : 0 < B) {l1 : List Doc} (l2 : List Doc)
    (hlen : l1.length = B) : chunksOf B (l1 ++ l2) = l1 :: chunksOf B l2 := by
  have hne : l1 ++ l2 ≠ [] := by
    intro h
    have : l1 = [] := by
      cases l1 with
      | nil => rfl
      | cons a t => simp at h
    simp [this] at hlen
    omega
  have hmax : max B 1 = B := by omega
  rw [chunksOf_eq_cons B hne, hmax, ← hlen, List.take_left, List.drop_left]

lemma mem_chunksOf_ne_nil (B : Nat) (hB : 0 < B) :
    ∀ n (l : List Doc), l.length ≤ n → ∀ c ∈ chunksOf B l, c ≠ [] := by
  intro n
  induction n with
  | zero =>
    intro l hl c hc
    have : l = [] := List.eq_nil_of_length_eq_zero (Nat.le_zero.mp hl)
    subst this
    simp [chunksOf] at hc
  | succ n ih =>
    intro l hl c hc
    cases l with
    | nil => simp [chunksOf] at hc
    | cons d t =>
      rw [chunksOf_eq_cons B (by simp)] at hc
      rcases List.mem_cons.mp hc with h | h
      · subst h
        have hmax : max B 1 = B := by omega
        rw [hmax]
        simp
        omega
      · exact ih _ (by simp at hl ⊢; omega) c h

lemma chunksOf_dropLast (B : Nat) (hB : 0 < B) :
    ∀ n (l : List Doc), l.length ≤ n →
      ∀ c ∈ (chunksOf B l).dropLast, c.length = B := by
  intro n
  induction n with
  | zero =>
    intro l hl c hc
    have : l = [] := List.eq_nil_of_length_eq_zero (Nat.le_zero.mp hl)
    subst this
    simp [chunksOf_nil] at hc
  | succ n ih =>
    intro l hl c hc
    cases l with
    | nil => simp [chunksOf_nil] at hc
    | cons d t =>
      have hmax : max B 1 = B := by omega
      rw [chunksOf_eq_cons B (by simp), hmax] at hc
      rcases hrest : chunksOf B ((d :: t).drop B) with _ | ⟨c0, cs⟩
      · rw [hrest] at hc
        simp at hc
      · rw [hrest, List.dropLast_cons₂, List.mem_cons] at hc
        rcases hc with hc | hc
        · subst hc
          have hdrop : (d :: t).drop B ≠ [] := by
            intro hnil
            rw [hnil, chunksOf_nil] at hrest
            exact List.noConfusion hrest
          have hlt : B < (d :: t).length := by
            by_contra hle
            exact hdrop (List.drop_eq_nil_of_le (by omega))
          simp only [List.length_cons] at hlt
          simp [List.length_take]
          omega
        · have := ih ((d :: t).drop B) (by simp at hl ⊢; omega) c
          rw [hrest] at this
          exact this hc

lemma chunksOf_length_mul (B : Nat) (hB : 0 < B) :
    ∀ k (l : List Doc), l.length = B * k → (chunksOf B l).length = k := by
  intro k
  induction k with
  | zero =>
    intro l hl
    have : l = [] := List.eq_nil_of_length_eq_zero (by omega)
    subst this
    simp [chunksOf_nil]
  | succ k ih =>
    intro l hl
    have hmax : max B 1 = B := by omega
    have hBle : B ≤ l.length := by
      rw [hl, Nat.mul_succ]
      omega
    have hne : l ≠ [] := by
      intro hnil
      rw [hnil] at hl
      simp [Nat.mul_succ] at hl
      omega
    rw [chunksOf_eq_cons B hne, hmax]
    have hdl : (l.drop B).length = B * k := by
      rw [List.length_drop, hl, Nat.mul_succ]
      omega
    rw [List.length_cons, ih (l.drop B) hdl]

lemma index_batch_ok (e : Embedder) (he : EmbedOk e) (docs : List Doc) (rs : RunState) :
    ∃ vecs,
      e (docs.map (·.title)) = some vecs ∧ vecs.length = docs.length ∧
      index_batch e docs rs =
        (flushedState rs ((docs.zip vecs).map fun p => Item.mk p.1 p.2)
          (docs.map (·.title)), none) := by
  obtain ⟨vecs, hvecs, hlen⟩ := he (docs.map (·.title))
  refine ⟨vecs, hvecs, by simpa using hlen, ?_⟩
  unfold index_batch
  simp only [hvecs]
  rw [if_pos (by simp [hlen])]
  rfl

lemma zip_map_doc (docs : List Doc) (vecs : List Vec) (h : docs.length ≤ vecs.length) :
    ((docs.zip vecs).map fun p => Item.mk p.1 p.2).map (·.doc) = docs := by
  rw [List.map_map]
  have : ((fun it => it.doc) ∘ fun p : Doc × Vec => Item.mk p.1 p.2) = Prod.fst := by
    funext p
    rfl
  rw [this]
  exact List.map_fst_zip docs vecs h

lemma mod_step (B count n : Nat) (hc : count % B = n) :
    (count + 1) % B = (n + 1) % B := by
  rw [← hc, Nat.mod_add_mod]

lemma keptDocs_nil : keptDocs [] = [] := rfl

lemma keptDocs_cons (d : Doc) (s : List Doc) :
    keptDocs (d :: s) = if d.type = "question" then d :: keptDocs s else keptDocs s := by
  simp only [keptDocs, List.filter_cons]
  split <;> simp_all

/-- Main invariant of the streaming loop: over a well-formed stream, with
a well-behaved provider, the loop succeeds, appends exactly the kept
records (in order) to the store, and performs one bulk call and one
embedding call per consecutive batch-size chunk of the kept records. -/
lemma ingestLoop_ok (e : Embedder) (B : Nat) (he : EmbedOk e) (hB : 0 < B) :
    ∀ (stream docs : List Doc) (count : Nat) (rs : RunState),
      count % B = docs.length → docs.length < B →
      ∃ rs1, ingestLoop e B (stream.map some) docs count rs = (rs1, none) ∧
        rs1.store.items.map (·.doc) =
          rs.store.items.map (·.doc) ++ docs ++ keptDocs stream ∧
        rs1.calls.map (fun c => c.map (·.doc)) =
          rs.calls.map (fun c => c.map (·.doc)) ++ chunksOf B (docs ++ keptDocs stream) ∧
        rs1.embeds =
          rs.embeds ++ (chunksOf B (docs ++ keptDocs stream)).map (fun c => c.map (·.title)) := by
  intro stream
  induction stream with
  | nil =>
    intro docs count rs hcount hlt
    by_cases hd : docs = []
    · subst hd
      refine ⟨refreshedState rs, ?_, ?_, ?_, ?_⟩
      · simp [ingestLoop, refreshedState]
      · simp [keptDocs_nil, refreshedState]
      · simp [keptDocs_nil, chunksOf_nil, refreshedState]
      · simp [keptDocs_nil, chunksOf_nil, refreshedState]
    · obtain ⟨vecs, hvecs, hlen, hbatch⟩ := index_batch_ok e he docs rs
      have hstep : ingestLoop e B (List.map some []) docs count rs =
          (refreshedState (flushedState rs ((docs.zip vecs).map fun p => Item.mk p.1 p.2)
            (docs.map (·.title))), none) := by
        simp only [List.map_nil, ingestLoop]
        rw [if_neg (by simpa using hd), hbatch]
        rfl
      refine ⟨_, hstep, ?_, ?_, ?_⟩
      · simp [keptDocs_nil, refreshedState, flushedState, zip_map_doc docs vecs (by omega)]
      · simp [keptDocs_nil, refreshedState, flushedState,
          chunksOf_small B hB hd (by omega), zip_map_doc docs vecs (by omega)]
      · simp [keptDocs_nil, refreshedState, flushedState, chunksOf_small B hB hd (by omega)]
  | cons d stream ih =>
    intro docs count rs hcount hlt
    by_cases hd : d.type = "question"
    · rw [keptDocs_cons, if_pos hd]
      have hmod1 : (count + 1) % B = (docs.length + 1) % B := mod_step B count _ hcount
      by_cases hflush : (count + 1) % B = 0
      · -- the incoming record fills the batch: flush it, then continue
        have hfull : docs.length + 1 = B := by
          rw [hmod1] at hflush
          rcases Nat.lt_or_ge (docs.length + 1) B with h | h
          · rw [Nat.mod_eq_of_lt h] at hflush
            omega
          · omega
        obtain ⟨vecs, hvecs, hlen, hbatch⟩ := index_batch_ok e he (docs ++ [d]) rs
        have hstep : ingestLoop e B ((d :: stream).map some) docs count rs =
            ingestLoop e B (stream.map some) [] (count + 1)
              (flushedState rs (((docs ++ [d]).zip vecs).map fun p => Item.mk p.1 p.2)
                ((docs ++ [d]).map (·.title))) := by
          simp only [List.map_cons, ingestLoop]
          rw [if_neg (by simp [hd])]
          simp only [if_pos hflush]
          rw [hbatch]
        obtain ⟨rs1, hrun, hitems, hcalls, hembeds⟩ :=
          ih [] (count + 1) _ (by simpa using hflush) hB
        have hzip : (((docs ++ [d]).zip vecs).map fun p => Item.mk p.1 p.2).map (·.doc) =
            docs ++ [d] :=
          zip_map_doc (docs ++ [d]) vecs (by simp at hlen ⊢; omega)
        have hassoc : docs ++ d :: keptDocs stream = (docs ++ [d]) ++ keptDocs stream := by
          simp
        have hchunk : chunksOf B ((docs ++ [d]) ++ keptDocs stream) =
            (docs ++ [d]) :: chunksOf B (keptDocs stream) :=
          chunksOf_append B hB (keptDocs stream) (by simp; omega)
        refine ⟨rs1, by rw [hstep, hrun], ?_, ?_, ?_⟩
        · rw [hitems]
          simp only [flushedState, List.map_append, List.nil_append, hzip]
          simp
        · rw [hcalls]
          simp only [flushedState, List.map_append, List.nil_append, List.map_cons,
            List.map_nil, hzip]
          rw [hassoc, hchunk]
          simp
        · rw [hembeds]
          simp only [flushedState]
          rw [hassoc, hchunk]
          simp
      · -- batch not yet full: keep accumulating
        have hlt1 : docs.length + 1 < B := by
          rcases Nat.lt_or_ge (docs.length + 1) B with h | h
          · exact h
          · have heq : docs.length + 1 = B := by omega
            rw [hmod1, heq, Nat.mod_self] at hflush
            omega
        have hcount1 : (count + 1) % B = (docs ++ [d]).length := by
          rw [hmod1, Nat.mod_eq_of_lt hlt1]
          simp
        have hstep : ingestLoop e B ((d :: stream).map some) docs count rs =
            ingestLoop e B (stream.map some) (docs ++ [d]) (count + 1) rs := by
          simp only [List.map_cons, ingestLoop]
          rw [if_neg (by simp [hd])]
          simp only [if_neg hflush]
        obtain ⟨rs1, hrun, hitems, hcalls, hembeds⟩ :=
          ih (docs ++ [d]) (count + 1) rs hcount1 (by simpa using hlt1)
        have hassoc : docs ++ d :: keptDocs stream = (docs ++ [d]) ++ keptDocs stream := by
          simp
        refine ⟨rs1, by rw [hstep, hrun], ?_, ?_, ?_⟩
        · rw [hitems]
          simp
        · rw [hcalls, hassoc]
        · rw [hembeds, hassoc]
    · rw [keptDocs_cons, if_neg hd]
      have hstep : ingestLoop e B ((d :: stream).map some) docs count rs =
          ingestLoop e B (stream.map some) docs count rs := by
        simp only [List.map_cons, ingestLoop]
        rw [if_pos (by simpa using hd)]
      obtain ⟨rs1, hrun, hitems, hcalls, hembeds⟩ := ih docs count rs hcount hlt
      exact ⟨rs1, by rw [hstep, hrun], hitems, hcalls, hembeds⟩

lemma index_batch_fail (e : Embedder) (docs : List Doc) (rs : RunState)
    (hfail : e (docs.map (·.title)) = none) :
    index_batch e docs rs =
      ({ rs with embeds := rs.embeds ++ [docs.map (·.title)] }, some .embedError) := by
  unfold index_batch
  simp only [hfail]

/-- A malformed line aborts the run where it stands: the error surfaces,
and nothing is persisted beyond the prefix before the malformed line. -/
lemma ingestLoop_malformed (e : Embedder) (B : Nat) (he : EmbedOk e) :
    ∀ (pre : List Doc) (post : List (Option Doc)) (docs : List Doc) (count : Nat)
      (rs : RunState),
      (ingestLoop e B (pre.map some ++ none :: post) docs count rs).2 =
        some .jsonError ∧
      ∀ it ∈ (ingestLoop e B (pre.map some ++ none :: post) docs count rs).1.store.items,
        it ∈ rs.store.items ∨ it.doc ∈ docs ∨ it.doc ∈ pre := by
  intro pre
  induction pre with
  | nil =>
    intro post docs count rs
    constructor
    · simp [ingestLoop]
    · intro it hit
      simp [ingestLoop] at hit
      exact Or.inl hit
  | cons d pre ih =>
    intro post docs count rs
    by_cases hd : d.type = "question"
    · by_cases hflush : (count + 1) % B = 0
      · obtain ⟨vecs, hvecs, hlen, hbatch⟩ := index_batch_ok e he (docs ++ [d]) rs
        have hstep : ingestLoop e B ((d :: pre).map some ++ none :: post) docs count rs =
            ingestLoop e B (pre.map some ++ none :: post) [] (count + 1)
              (flushedState rs (((docs ++ [d]).zip vecs).map fun p => Item.mk p.1 p.2)
                ((docs ++ [d]).map (·.title))) := by
          simp only [List.map_cons, List.cons_append, ingestLoop]
          rw [if_neg (by simp [hd])]
          simp only [if_pos hflush]
          rw [hbatch]
          rfl
        rw [hstep]
        obtain ⟨herr, hmem⟩ := ih post [] (count + 1) _
        refine ⟨herr, ?_⟩
        intro it hit
        rcases hmem it hit with h | h | h
        · simp only [flushedState, List.mem_append] at h
          rcases h with h | h
          · exact Or.inl h
          · have : it.doc ∈ docs ++ [d] := by
              have hzip : (((docs ++ [d]).zip vecs).map fun p => Item.mk p.1 p.2).map
                  (·.doc) = docs ++ [d] :=
                zip_map_doc (docs ++ [d]) vecs (by simp at hlen ⊢; omega)
              rw [← hzip]
              exact List.mem_map_of_mem _ h
            simp only [List.mem_append, List.mem_singleton] at this
            rcases this with h2 | h2
            · exact Or.inr (Or.inl h2)
            · exact Or.inr (Or.inr (by simp [h2]))
        · simp at h
        · exact Or.inr (Or.inr (by simp [h]))
      · have hstep : ingestLoop e B ((d :: pre).map some ++ none :: post) docs count rs =
            ingestLoop e B (pre.map some ++ none :: post) (docs ++ [d]) (count + 1) rs := by
          simp only [List.map_cons, List.cons_append, ingestLoop]
          rw [if_neg (by simp [hd])]
          simp only [if_neg hflush]
          rfl
        rw [hstep]
        obtain ⟨herr, hmem⟩ := ih post (docs ++ [d]) (count + 1) rs
        refine ⟨herr, ?_⟩
        intro it hit
        rcases hmem it hit with h | h | h
        · exact Or.inl h
        · simp only [List.mem_append, List.mem_singleton] at h
          rcases h with h | h
          · exact Or.inr (Or.inl h)
          · exact Or.inr (Or.inr (by simp [h]))
        · exact Or.inr (Or.inr (by simp [h]))
    · have hstep : ingestLoop e B ((d :: pre).map some ++ none :: post) docs count rs =
          ingestLoop e B (pre.map some ++ none :: post) docs count rs := by
        simp only [List.map_cons, List.cons_append, ingestLoop]
        rw [if_pos (by simpa using hd)]
        rfl
      rw [hstep]
      obtain ⟨herr, hmem⟩ := ih post docs count rs
      refine ⟨herr, ?_⟩
      intro it hit
      rcases hmem it hit with h | h | h
      · exact Or.inl h
      · exact Or.inr (Or.inl h)
      · exact Or.inr (Or.inr (by simp [h]))

lemma index_batch_ok2 (e : Embedder) (docs : List Doc) (rs : RunState) (vecs : List Vec)
    (hvecs : e (docs.map (·.title)) = some vecs) (hlen : docs.length ≤ vecs.length) :
    index_batch e docs rs =
      (flushedState rs ((docs.zip vecs).map fun p => Item.mk p.1 p.2)
        (docs.map (·.title)), none) := by
  unfold index_batch
  simp only [hvecs]
  rw [if_pos hlen]
  rfl

/-- If the provider fails on the first batch the loop will flush — which
is always the first batch-size-many of the pending plus kept records —
the run aborts right there: the store and the bulk-call log are left
untouched and the failing embedding call is the last one attempted. -/
lemma ingestLoop_firstBatchFail (e : Embedder) (B : Nat) (hB : 0 < B) :
    ∀ (stream docs : List Doc) (count : Nat) (rs : RunState),
      count % B = docs.length → docs.length < B →
      docs ++ keptDocs stream ≠ [] →
      e (((docs ++ keptDocs stream).take B).map (·.title)) = none →
      (ingestLoop e B (stream.map some) docs count rs).2 = some .embedError ∧
      (ingestLoop e B (stream.map some) docs count rs).1.store.items = rs.store.items ∧
      (ingestLoop e B (stream.map some) docs count rs).1.calls = rs.calls ∧
      (ingestLoop e B (stream.map some) docs count rs).1.embeds =
        rs.embeds ++ [((docs ++ keptDocs stream).take B).map (·.title)] := by
  intro stream
  induction stream with
  | nil =>
    intro docs count rs hcount hlt hne hfail
    have hd : docs ≠ [] := by simpa [keptDocs_nil] using hne
    have htake : (docs ++ keptDocs []).take B = docs := by
      rw [keptDocs_nil, List.append_nil]
      exact List.take_of_length_le (by omega)
    rw [htake] at hfail
    have hstep : ingestLoop e B (List.map some []) docs count rs =
        ({ rs with embeds := rs.embeds ++ [docs.map (·.title)] }, some .embedError) := by
      simp only [List.map_nil, ingestLoop]
      rw [if_neg (by simpa using hd), index_batch_fail e docs rs hfail]
    rw [hstep]
    simp [htake]
  | cons d stream ih =>
    intro docs count rs hcount hlt hne hfail
    by_cases hd : d.type = "question"
    · have hmod1 : (count + 1) % B = (docs.length + 1) % B := mod_step B count _ hcount
      by_cases hflush : (count + 1) % B = 0
      · have hfull : docs.length + 1 = B := by
          rw [hmod1] at hflush
          rcases Nat.lt_or_ge (docs.length + 1) B with h | h
          · rw [Nat.mod_eq_of_lt h] at hflush
            omega
          · omega
        have htake : (docs ++ keptDocs (d :: stream)).take B = docs ++ [d] := by
          rw [keptDocs_cons, if_pos hd,
            show docs ++ d :: keptDocs stream = (docs ++ [d]) ++ keptDocs stream by simp]
          have hl : (docs ++ [d]).length = B := by
            simp
            omega
          rw [← hl]
          exact List.take_left _ _
        rw [htake] at hfail
        have hstep : ingestLoop e B ((d :: stream).map some) docs count rs =
            ({ rs with embeds := rs.embeds ++ [(docs ++ [d]).map (·.title)] },
              some .embedError) := by
          simp only [List.map_cons, ingestLoop]
          rw [if_neg (by simp [hd])]
          simp only [if_pos hflush]
          rw [index_batch_fail e (docs ++ [d]) rs hfail]
        rw [hstep]
        simp [htake]
      · have hlt1 : docs.length + 1 < B := by
          rcases Nat.lt_or_ge (docs.length + 1) B with h | h
          · exact h
          · have heq : docs.length + 1 = B := by omega
            rw [hmod1, heq, Nat.mod_self] at hflush
            omega
        have hcount1 : (count + 1) % B = (docs ++ [d]).length := by
          rw [hmod1, Nat.mod_eq_of_lt hlt1]
          simp
        have hlist : (docs ++ [d]) ++ keptDocs stream = docs ++ keptDocs (d :: stream) := by
          rw [keptDocs_cons, if_pos hd]
          simp
        have hstep : ingestLoop e B ((d :: stream).map some) docs count rs =
            ingestLoop e B (stream.map some) (docs ++ [d]) (count + 1) rs := by
          simp only [List.map_cons, ingestLoop]
          rw [if_neg (by simp [hd])]
          simp only [if_neg hflush]
        obtain ⟨h1, h2, h3, h4⟩ := ih (docs ++ [d]) (count + 1) rs hcount1
          (by simpa using hlt1) (by simp) (by rw [hlist]; exact hfail)
        rw [hstep]
        rw [hlist] at h4
        exact ⟨h1, h2, h3, h4⟩
    · have hlist : docs ++ keptDocs (d :: stream) = docs ++ keptDocs stream := by
        rw [keptDocs_cons, if_neg hd]
      rw [hlist] at hne hfail ⊢
      have hstep : ingestLoop e B ((d :: stream).map some) docs count rs =
          ingestLoop e B (stream.map some) docs count rs := by
        simp only [List.map_cons, ingestLoop]
        rw [if_pos (by simpa using hd)]
      rw [hstep]
      exact ih docs count rs hcount hlt hne hfail

/-- Running the loop over a prefix whose kept records align with the
batch boundary (given a provider that succeeds on exactly those
batches): the loop reaches the rest of the stream with an empty pending
batch, having persisted precisely the prefix records and logged its
chunks as bulk and embedding calls. -/
lemma ingestLoop_flush_aligned (e : Embedder) (B : Nat) (hB : 0 < B) :
    ∀ (pre : List Doc) (post : List (Option Doc)) (docs : List Doc) (count : Nat)
      (rs : RunState),
      count % B = docs.length → docs.length < B →
      (∀ c ∈ chunksOf B (docs ++ keptDocs pre), ∃ vs, e (c.map (·.title)) = some vs ∧
        vs.length = c.length) →
      (docs.length + (keptDocs pre).length) % B = 0 →
      ∃ rs1, ingestLoop e B (pre.map some ++ post) docs count rs =
          ingestLoop e B post [] (count + (keptDocs pre).length) rs1 ∧
        rs1.store.items.map (·.doc) = rs.store.items.map (·.doc) ++ docs ++ keptDocs pre ∧
        rs1.calls.map (fun c => c.map (·.doc)) =
          rs.calls.map (fun c => c.map (·.doc)) ++ chunksOf B (docs ++ keptDocs pre) ∧
        rs1.embeds =
          rs.embeds ++ (chunksOf B (docs ++ keptDocs pre)).map (fun c => c.map (·.title)) := by
  intro pre
  induction pre with
  | nil =>
    intro post docs count rs hcount hlt hgood halign
    simp only [keptDocs_nil, List.append_nil, List.length_nil, Nat.add_zero]
      at hgood halign ⊢
    rw [Nat.mod_eq_of_lt hlt] at halign
    have hd : docs = [] := List.eq_nil_of_length_eq_zero halign
    subst hd
    exact ⟨rs, by simp, by simp, by simp [chunksOf_nil], by simp [chunksOf_nil]⟩
  | cons d pre ih =>
    intro post docs count rs hcount hlt hgood halign
    by_cases hd : d.type = "question"
    · rw [keptDocs_cons, if_pos hd] at hgood halign ⊢
      have hmod1 : (count + 1) % B = (docs.length + 1) % B := mod_step B count _ hcount
      by_cases hflush : (count + 1) % B = 0
      · have hfull : docs.length + 1 = B := by
          rw [hmod1] at hflush
          rcases Nat.lt_or_ge (docs.length + 1) B with h | h
          · rw [Nat.mod_eq_of_lt h] at hflush
            omega
          · omega
        have hassoc : docs ++ d :: keptDocs pre = (docs ++ [d]) ++ keptDocs pre := by
          simp
        have hchunk : chunksOf B ((docs ++ [d]) ++ keptDocs pre) =
            (docs ++ [d]) :: chunksOf B (keptDocs pre) :=
          chunksOf_append B hB (keptDocs pre) (by simp; omega)
        rw [hassoc, hchunk] at hgood
        obtain ⟨vecs, hvecs, hveclen⟩ := hgood (docs ++ [d]) (List.mem_cons_self _ _)
        have hbatch := index_batch_ok2 e (docs ++ [d]) rs vecs hvecs
          (by rw [hveclen])
        have hstep : ingestLoop e B ((d :: pre).map some ++ post) docs count rs =
            ingestLoop e B (pre.map some ++ post) [] (count + 1)
              (flushedState rs (((docs ++ [d]).zip vecs).map fun p => Item.mk p.1 p.2)
                ((docs ++ [d]).map (·.title))) := by
          simp only [List.map_cons, List.cons_append, ingestLoop]
          rw [if_neg (by simp [hd])]
          simp only [if_pos hflush]
          rw [hbatch]
          rfl
        have halign1 : (0 + (keptDocs pre).length) % B = 0 := by
          have h1 : docs.length + (d :: keptDocs pre).length =
              B + (keptDocs pre).length := by
            simp
            omega
          rw [h1, Nat.add_mod_left] at halign
          simpa using halign
        obtain ⟨rs1, hrun, hitems, hcalls, hembeds⟩ :=
          ih post [] (count + 1) _ (by simpa using hflush) hB
            (by
              intro c hc
              refine hgood c (List.mem_cons_of_mem _ ?_)
              simpa using hc)
            halign1
        have hzip : (((docs ++ [d]).zip vecs).map fun p => Item.mk p.1 p.2).map (·.doc) =
            docs ++ [d] :=
          zip_map_doc (docs ++ [d]) vecs (by rw [hveclen])
        have hcnt : count + 1 + (keptDocs pre).length =
            count + (d :: keptDocs pre).length := by
          simp
          omega
        refine ⟨rs1, ?_, ?_, ?_, ?_⟩
        · rw [hstep, hrun, hcnt]
        · rw [hitems]
          simp only [flushedState, List.map_append, List.nil_append, hzip]
          simp
        · rw [hcalls]
          simp only [flushedState, List.map_append, List.nil_append, List.map_cons,
            List.map_nil, hzip]
          rw [hassoc, hchunk]
          simp
        · rw [hembeds]
          simp only [flushedState]
          rw [hassoc, hchunk]
          simp
      · have hlt1 : docs.length + 1 < B := by
          rcases Nat.lt_or_ge (docs.length + 1) B with h | h
          · exact h
          · have heq : docs.length + 1 = B := by omega
            rw [hmod1, heq, Nat.mod_self] at hflush
            omega
        have hcount1 : (count + 1) % B = (docs ++ [d]).length := by
          rw [hmod1, Nat.mod_eq_of_lt hlt1]
          simp
        have hassoc : docs ++ d :: keptDocs pre = (docs ++ [d]) ++ keptDocs pre := by
          simp
        have halign1 : ((docs ++ [d]).length + (keptDocs pre).length) % B = 0 := by
          have h1 : (docs ++ [d]).length + (keptDocs pre).length =
              docs.length + (d :: keptDocs pre).length := by
            simp
            omega
          rw [h1]
          exact halign
        have hstep : ingestLoop e B ((d :: pre).map some ++ post) docs count rs =
            ingestLoop e B (pre.map some ++ post) (docs ++ [d]) (count + 1) rs := by
          simp only [List.map_cons, List.cons_append, ingestLoop]
          rw [if_neg (by simp [hd])]
          simp only [if_neg hflush]
          rfl
        obtain ⟨rs1, hrun, hitems, hcalls, hembeds⟩ :=
          ih post (docs ++ [d]) (count + 1) rs hcount1 (by simpa using hlt1)
            (by rw [hassoc] at hgood; exact hgood) halign1
        have hcnt : count + 1 + (keptDocs pre).length =
            count + (d :: keptDocs pre).length := by
          simp
          omega
        refine ⟨rs1, ?_, ?_, ?_, ?_⟩
        · rw [hstep, hrun, hcnt]
        · rw [hitems]
          simp
        · rw [hcalls, hassoc]
        · rw [hembeds, hassoc]
    · rw [keptDocs_cons, if_neg hd] at hgood halign ⊢
      have hstep : ingestLoop e B ((d :: pre).map some ++ post) docs count rs =
          ingestLoop e B (pre.map some ++ post) docs count rs := by
        simp only [List.map_cons, List.cons_append, ingestLoop]
        rw [if_pos (by simpa using hd)]
        rfl
      obtain ⟨rs1, hrun, hitems, hcalls, hembeds⟩ :=
        ih post docs count rs hcount hlt hgood halign
      exact ⟨rs1, by rw [hstep, hrun], hitems, hcalls, hembeds⟩

lemma chunksOf_subset (B : Nat) :
    ∀ n (l : List Doc), l.length ≤ n → ∀ c ∈ chunksOf B l, ∀ d ∈ c, d ∈ l := by
  intro n
  induction n with
  | zero =>
    intro l hl c hc
    have : l = [] := List.eq_nil_of_length_eq_zero (Nat.le_zero.mp hl)
    subst this
    simp [chunksOf_nil] at hc
  | succ n ih =>
    intro l hl c hc d hd
    cases l with
    | nil => simp [chunksOf_nil] at hc
    | cons x t =>
      rw [chunksOf_eq_cons B (by simp)] at hc
      rcases List.mem_cons.mp hc with h | h
      · subst h
        exact List.take_subset _ _ hd
      · exact List.drop_subset _ _ (ih _ (by simp at hl ⊢; omega) c h d hd)

lemma mem_keptDocs {d : Doc} {stream : List Doc} (h : d ∈ keptDocs stream) :
    d.type = "question" := by
  simp only [keptDocs, List.mem_filter, decide_eq_true_eq] at h
  exact h.2

/-- A successful full run: the persisted docs are exactly the kept
records, and the bulk/embedding call logs follow the batch chunks. -/
lemma index_data_ok (e : Embedder) (B : Nat) (he : EmbedOk e) (hB : 0 < B)
    (stream : List Doc) (s : Store) :
    ∃ rs1, index_data e B (stream.map some) s = (rs1, none) ∧
      rs1.store.items.map (·.doc) = keptDocs stream ∧
      rs1.calls.map (fun c => c.map (·.doc)) = chunksOf B (keptDocs stream) ∧
      rs1.embeds = (chunksOf B (keptDocs stream)).map (fun c => c.map (·.title)) := by
  obtain ⟨rs1, hrun, hitems, hcalls, hembeds⟩ :=
    ingestLoop_ok e B he hB stream [] 0 ⟨⟨true, [], false⟩, [], []⟩ (by simp) hB
  exact ⟨rs1, hrun, by simpa using hitems, by simpa using hcalls, by simpa using hembeds⟩

lemma e1_ok : EmbedOk e1 := by
  intro ts
  exact ⟨ts.map fun _ => [1], rfl, by simp [e1]⟩

/-- C1: for every query text whose embedding succeeds, the query pipeline
scores every stored record as `cosineSimilarity(q, record.vector) + 1.0`
with `q` the query embedding, ranks the whole scored list by descending
shifted score, and returns exactly the top `k` of that ranking (so
`min k N` hits), each hit carrying the shifted value (not the raw cosine
similarity). -/
theorem C1_query_ranked_by_shifted_score (e : Embedder) (query : String) (k : Nat)
    (items : List Item) (qv : Vec) (rest : List Vec)
    (hq : e [query] = some (qv :: rest)) :
    ∃ (hits ranked : List Hit), handle_query e query k items = some hits ∧
      ranked.Perm (items.map fun it => Hit.mk it (cosineSimilarity qv it.vector + 1)) ∧
      ranked.Sorted (fun h1 h2 => h2.score ≤ h1.score) ∧
      hits = ranked.take k ∧
      hits.length = min k items.length ∧
      ∀ h ∈ hits, h.item ∈ items ∧ h.score = cosineSimilarity qv h.item.vector + 1 := by
  haveI : IsTotal Hit hitDesc := ⟨fun a b => le_total b.score a.score⟩
  haveI : IsTrans Hit hitDesc := ⟨fun a b c h1 h2 => le_trans h2 h1⟩
  refine ⟨scriptScoreSearch qv k items,
    List.insertionSort hitDesc
      (items.map fun it => Hit.mk it (cosineSimilarity qv it.vector + 1)),
    ?_, List.perm_insertionSort hitDesc _, ?_, rfl, ?_, ?_⟩
  · unfold handle_query
    rw [hq]
  · exact List.sorted_insertionSort hitDesc _
  · have hlen := (List.perm_insertionSort hitDesc
      (items.map fun it => Hit.mk it (cosineSimilarity qv it.vector + 1))).length_eq
    simp [scriptScoreSearch, List.length_take, hlen]
  · intro h hmem
    have h1 : h ∈ List.insertionSort hitDesc
        (items.map fun it => Hit.mk it (cosineSimilarity qv it.vector + 1)) :=
      List.mem_of_mem_take hmem
    have h2 : h ∈ items.map fun it => Hit.mk it (cosineSimilarity qv it.vector + 1) :=
      (List.mem_insertionSort hitDesc).mp h1
    obtain ⟨it, hitmem, hiteq⟩ := List.mem_map.mp h2
    refine ⟨?_, ?_⟩
    · rw [← hiteq]
      exact hitmem
    · rw [← hiteq]

/-- C1 witness: a concrete query over a two-item store. -/
theorem C1_witness :
    e1 ["cuda"] = some (([1] : Vec) :: []) ∧
    ∃ (hits ranked : List Hit),
      handle_query e1 "cuda" 5 [Item.mk qd1 [1], Item.mk qd2 [0]] = some hits ∧
      ranked.Perm ([Item.mk qd1 [1], Item.mk qd2 [0]].map fun it =>
        Hit.mk it (cosineSimilarity [1] it.vector + 1)) ∧
      ranked.Sorted (fun h1 h2 => h2.score ≤ h1.score) ∧
      hits = ranked.take 5 ∧
      hits.length = min 5 [Item.mk qd1 [1], Item.mk qd2 [0]].length ∧
      ∀ h ∈ hits, h.item ∈ [Item.mk qd1 [1], Item.mk qd2 [0]] ∧
        h.score = cosineSimilarity [1] h.item.vector + 1 :=
  ⟨rfl, C1_query_ranked_by_shifted_score e1 "cuda" 5 [Item.mk qd1 [1], Item.mk qd2 [0]]
    [1] [] rfl⟩

/-- C2: for every source stream containing M records of type Answer and N
records of type Question, ingestion persists exactly N items, every
persisted item has kind Question, and no Answer record is ever written
to the store (no bulk call ever carries a non-question record). -/
theorem C2_only_questions_persisted (e : Embedder) (B : Nat) (stream : List Doc)
    (s : Store) (he : EmbedOk e) (hB : 0 < B) :
    ∃ rs1, index_data e B (stream.map some) s = (rs1, none) ∧
      rs1.store.items.map (·.doc) = keptDocs stream ∧
      rs1.store.items.length = (keptDocs stream).length ∧
      (∀ it ∈ rs1.store.items, it.doc.type = "question") ∧
      ∀ c ∈ rs1.calls, ∀ it ∈ c, it.doc.type = "question" := by
  obtain ⟨rs1, hrun, hitems, hcalls, hembeds⟩ := index_data_ok e B he hB stream s
  refine ⟨rs1, hrun, hitems, ?_, ?_, ?_⟩
  · rw [← hitems]
    simp
  · intro it hit
    have : it.doc ∈ keptDocs stream := by
      rw [← hitems]
      exact List.mem_map_of_mem _ hit
    exact mem_keptDocs this
  · intro c hc it hit
    have hcmem : c.map (·.doc) ∈ chunksOf B (keptDocs stream) := by
      rw [← hcalls]
      exact List.mem_map_of_mem _ hc
    have : it.doc ∈ keptDocs stream :=
      chunksOf_subset B (keptDocs stream).length (keptDocs stream) le_rfl
        (c.map (·.doc)) hcmem it.doc (List.mem_map_of_mem _ hit)
    exact mem_keptDocs this

/-- C2 witness: a concrete stream of one answer and two questions. -/
theorem C2_witness :
    EmbedOk e1 ∧ 0 < 2 ∧
    ∃ rs1, index_data e1 2 ([qd1, ad1, qd2].map some) store0 = (rs1, none) ∧
      rs1.store.items.map (·.doc) = keptDocs [qd1, ad1, qd2] ∧
      rs1.store.items.length = (keptDocs [qd1, ad1, qd2]).length ∧
      (∀ it ∈ rs1.store.items, it.doc.type = "question") ∧
      ∀ c ∈ rs1.calls, ∀ it ∈ c, it.doc.type = "question" :=
  ⟨e1_ok, by omega,
    C2_only_questions_persisted e1 2 [qd1, ad1, qd2] store0 e1_ok (by omega)⟩

/-- C3: kept records are accumulated into batches flushed exactly when
they reach the batch size, with a final partial batch at stream end: the
bulk calls are exactly the consecutive batch-size chunks of the kept
records; in particular batchSize + 1 question records produce two calls
of sizes batchSize and 1, in that order. -/
theorem C3_batch_boundary (e : Embedder) (B : Nat) (stream : List Doc)
    (s : Store) (he : EmbedOk e) (hB : 0 < B) :
    ∃ rs1, index_data e B (stream.map some) s = (rs1, none) ∧
      rs1.calls.map (fun c => c.map (·.doc)) = chunksOf B (keptDocs stream) ∧
      ((keptDocs stream).length = B + 1 →
        rs1.calls.map (fun c => c.length) = [B, 1]) := by
  obtain ⟨rs1, hrun, hitems, hcalls, hembeds⟩ := index_data_ok e B he hB stream s
  refine ⟨rs1, hrun, hcalls, ?_⟩
  intro hBp1
  have hmaps : rs1.calls.map (fun c => c.length) =
      (rs1.calls.map (fun c => c.map (·.doc))).map (fun c => c.length) := by
    simp [List.map_map, Function.comp]
  have hne : keptDocs stream ≠ [] := by
    intro h
    rw [h] at hBp1
    simp at hBp1
  have hchunks : chunksOf B (keptDocs stream) =
      [(keptDocs stream).take B, (keptDocs stream).drop B] := by
    rw [chunksOf_eq_cons B hne, show max B 1 = B by omega]
    have hdne : (keptDocs stream).drop B ≠ [] := by
      intro h
      have := congrArg List.length h
      simp [hBp1] at this
    rw [chunksOf_small B hB hdne (by simp [hBp1]; omega)]
  rw [hmaps, hcalls, hchunks]
  simp [hBp1]

/-- C3 witness: batch size 2, three question records: calls of sizes 2, 1. -/
theorem C3_witness :
    EmbedOk e1 ∧ 0 < 2 ∧
    ∃ rs1, index_data e1 2 ([qd1, qd2, qd3].map some) store0 = (rs1, none) ∧
      rs1.calls.map (fun c => c.map (·.doc)) = chunksOf 2 (keptDocs [qd1, qd2, qd3]) ∧
      ((keptDocs [qd1, qd2, qd3]).length = 2 + 1 →
        rs1.calls.map (fun c => c.length) = [2, 1]) :=
  ⟨e1_ok, by omega, C3_batch_boundary e1 2 [qd1, qd2, qd3] store0 e1_ok (by omega)⟩

/-- C4: a flush extracts the batch titles in order, embeds that title
list, and attaches the i-th returned vector to the i-th record before
bulk-upserting, so every written record carries the embedding of its own
title. -/
theorem C4_flush_attaches_own_title_vector (e : Embedder) (docs : List Doc)
    (rs : RunState) (vecs : List Vec) (hvecs : e (docs.map (·.title)) = some vecs)
    (hlen : docs.length ≤ vecs.length) :
    ∃ reqs, index_batch e docs rs = (flushedState rs reqs (docs.map (·.title)), none) ∧
      reqs.length = docs.length ∧
      ∀ i, (hi : i < docs.length) → ∃ (hr : i < reqs.length) (hv : i < vecs.length),
        reqs[i] = Item.mk docs[i] vecs[i] := by
  refine ⟨(docs.zip vecs).map fun p => Item.mk p.1 p.2, ?_, ?_, ?_⟩
  · unfold index_batch
    simp only [hvecs]
    rw [if_pos hlen]
    rfl
  · simp
    omega
  · intro i hi
    have hr : i < ((docs.zip vecs).map fun p => Item.mk p.1 p.2).length := by
      simp
      omega
    refine ⟨hr, by omega, ?_⟩
    simp

/-- C4 witness: two records, a provider returning one vector each. -/
theorem C4_witness :
    e1 ([qd1, qd2].map (·.title)) = some [[1], [1]] ∧ [qd1, qd2].length ≤ 2 ∧
    ∃ reqs, index_batch e1 [qd1, qd2] (RunState.mk store0 [] []) =
        (flushedState (RunState.mk store0 [] []) reqs ([qd1, qd2].map (·.title)), none) ∧
      reqs.length = [qd1, qd2].length ∧
      ∀ i, (hi : i < [qd1, qd2].length) →
        ∃ (hr : i < reqs.length) (hv : i < ([[1], [1]] : List Vec).length),
          reqs[i] = Item.mk [qd1, qd2][i] ([[1], [1]] : List Vec)[i] :=
  ⟨rfl, by simp,
    C4_flush_attaches_own_title_vector e1 [qd1, qd2] (RunState.mk store0 [] [])
      [[1], [1]] rfl (by simp)⟩

/-- C5: running ingestion twice against the same source stream yields the
very same result as running it once: the run drops and recreates the
index before writing, so its outcome does not depend on the incoming
store state at all. -/
theorem C5_reingestion_idempotent (e : Embedder) (B : Nat) (lines : List (Option Doc))
    (s : Store) :
    index_data e B lines ((index_data e B lines s).1.store) = index_data e B lines s := rfl

/-- C6: the scorer computes `sum(a[i]*b[i]) / (sqrt(sum(a[i]^2)) *
sqrt(sum(b[i]^2)))` and is commutative in its two arguments. -/
theorem C6_cosine_formula_and_commutative (a b : Vec) (hlen : a.length = b.length) :
    cosineSimilarity a b = cosineFormulaSpec a b ∧
    cosineSimilarity a b = cosineSimilarity b a := by
  constructor
  · unfold cosineSimilarity cosineFormulaSpec magnitude
    rw [← dotQ_eq_zip_sum a b, ← dotQ_self_eq_sumsq a, ← dotQ_self_eq_sumsq b]
    by_cases ha : dotQ a a = 0
    · rw [if_pos (Or.inl ha), ha]
      simp
    · by_cases hb : dotQ b b = 0
      · rw [if_pos (Or.inr hb), hb]
        simp
      · rw [if_neg (by tauto)]
  · unfold cosineSimilarity
    rw [dotQ_comm a b]
    by_cases h : dotQ a a = 0 ∨ dotQ b b = 0
    · rw [if_pos h, if_pos h.symm]
    · rw [if_neg h, if_neg (fun hc => h hc.symm), mul_comm]

/-- C6 witness: two concrete orthogonal vectors of length 2. -/
theorem C6_witness :
    ([1, 0] : Vec).length = ([0, 1] : Vec).length ∧
    (cosineSimilarity [1, 0] [0, 1] = cosineFormulaSpec [1, 0] [0, 1] ∧
      cosineSimilarity [1, 0] [0, 1] = cosineSimilarity [0, 1] [1, 0]) :=
  ⟨rfl, C6_cosine_formula_and_commutative [1, 0] [0, 1] rfl⟩

/-- C7: pairing any vector of exactly zero magnitude with any vector of
equal length, the scorer returns 0 (not NaN), keeping ranking
well-defined. -/
theorem C7_zero_magnitude_scores_zero (z b : Vec) (hz : magnitude z = 0)
    (hlen : z.length = b.length) : cosineSimilarity z b = 0 := by
  have h0 : dotQ z z = 0 := (magnitude_eq_zero_iff z).mp hz
  unfold cosineSimilarity
  rw [if_pos (Or.inl h0)]

/-- C7 witness: the zero vector of length 2 against a concrete vector. -/
theorem C7_witness :
    magnitude [0, 0] = 0 ∧ ([0, 0] : Vec).length = ([1, 2] : Vec).length ∧
    cosineSimilarity [0, 0] [1, 2] = 0 := by
  have hz : magnitude [0, 0] = 0 := by
    unfold magnitude
    norm_num [dotQ]
  exact ⟨hz, rfl, C7_zero_magnitude_scores_zero [0, 0] [1, 2] hz rfl⟩

/-- C8 counterexample: a stream whose first line is malformed followed by
one question record. The run aborts with the parse error before even one
embedding call, persisting nothing — while the same stream without the
malformed line persists the question — so the malformed record is fatal
rather than skipped with a warning. -/
theorem C8_counterexample :
    (index_data e1 2 [none, some qd1] store0).2 = some IngestError.jsonError ∧
    (index_data e1 2 [none, some qd1] store0).1.store.items.length = 0 ∧
    (index_data e1 2 [none, some qd1] store0).1.embeds = [] ∧
    (index_data e1 2 [some qd1] store0).2 = none ∧
    (index_data e1 2 [some qd1] store0).1.store.items.length = 1 :=
  ⟨rfl, rfl, rfl, rfl, rfl⟩

/-- C8 amended: a malformed source record is fatal to the ingestion run:
the run stops there with the parse error, and no record at or beyond the
malformed line is ever persisted (only records of the preceding prefix
can have been written). -/
theorem C8_amended_malformed_is_fatal (e : Embedder) (B : Nat) (he : EmbedOk e)
    (pre : List Doc) (post : List (Option Doc)) (s : Store) :
    (index_data e B (pre.map some ++ none :: post) s).2 = some IngestError.jsonError ∧
    ∀ it ∈ (index_data e B (pre.map some ++ none :: post) s).1.store.items,
      it.doc ∈ pre := by
  obtain ⟨herr, hmem⟩ :=
    ingestLoop_malformed e B he pre post [] 0 ⟨⟨true, [], false⟩, [], []⟩
  refine ⟨herr, fun it hit => ?_⟩
  rcases hmem it hit with h | h | h
  · simp at h
  · simp at h
  · exact h

/-- C8 amended witness: the concrete malformed stream of the
counterexample. -/
theorem C8_amended_witness :
    EmbedOk e1 ∧
    ((index_data e1 2 ([qd1].map some ++ none :: [some qd2]) store0).2 =
        some IngestError.jsonError ∧
      ∀ it ∈ (index_data e1 2 ([qd1].map some ++ none :: [some qd2]) store0).1.store.items,
        it.doc ∈ [qd1]) :=
  ⟨e1_ok, C8_amended_malformed_is_fatal e1 2 e1_ok [qd1] [some qd2] store0⟩

/-- C9 counterexample: batch size 1 and two question records, with a
provider that always fails. The run stops at the very first batch: only
one embedding call is ever attempted (the second batch is never tried)
and the error aborts the whole run, refuting batch-only isolation. -/
theorem C9_counterexample :
    (index_data eFail 1 [some qd1, some qd2] store0).2 = some IngestError.embedError ∧
    (index_data eFail 1 [some qd1, some qd2] store0).1.embeds = [["t1"]] ∧
    (index_data eFail 1 [some qd1, some qd2] store0).1.calls = [] ∧
    (index_data eFail 1 [some qd1, some qd2] store0).1.store.items = [] :=
  ⟨rfl, rfl, rfl, rfl⟩

/-- C9 amended: an embedding failure at any flush aborts the entire
ingestion run at that flush: every batch flushed before it stays
persisted, nothing from the failing batch is persisted, the failing
provider call is the last one attempted, and no later batch is
processed; no strict/fatal configuration exists. Here `pre` is the part
of the stream whose kept records fill whole batches the provider
embeds successfully, and the provider fails on the next batch formed
from `post`. -/
theorem C9_amended_embed_failure_fatal (e : Embedder) (B : Nat) (hB : 0 < B)
    (pre post : List Doc) (s : Store)
    (hgood : ∀ c ∈ chunksOf B (keptDocs pre), ∃ vs, e (c.map (·.title)) = some vs ∧
      vs.length = c.length)
    (halign : (keptDocs pre).length % B = 0)
    (hne : keptDocs post ≠ [])
    (hfail : e (((keptDocs post).take B).map (·.title)) = none) :
    (index_data e B ((pre ++ post).map some) s).2 = some IngestError.embedError ∧
    (index_data e B ((pre ++ post).map some) s).1.store.items.map (·.doc) =
      keptDocs pre ∧
    (index_data e B ((pre ++ post).map some) s).1.calls.map (fun c => c.map (·.doc)) =
      chunksOf B (keptDocs pre) ∧
    (index_data e B ((pre ++ post).map some) s).1.embeds =
      (chunksOf B (keptDocs pre)).map (fun c => c.map (·.title)) ++
        [((keptDocs post).take B).map (·.title)] := by
  have hix : index_data e B ((pre ++ post).map some) s =
      ingestLoop e B (pre.map some ++ post.map some) [] 0 ⟨⟨true, [], false⟩, [], []⟩ := by
    rw [List.map_append]
    rfl
  obtain ⟨rs1, hrun, hitems, hcalls, hembeds⟩ :=
    ingestLoop_flush_aligned e B hB pre (post.map some) [] 0 ⟨⟨true, [], false⟩, [], []⟩
      (by simp) hB (by simpa using hgood) (by simpa using halign)
  obtain ⟨h1, h2, h3, h4⟩ := ingestLoop_firstBatchFail e B hB post []
    (0 + (keptDocs pre).length) rs1 (by simpa using halign) hB
    (by simpa using hne) (by simpa using hfail)
  rw [hix, hrun]
  refine ⟨h1, ?_, ?_, ?_⟩
  · rw [h2, hitems]
    simp
  · rw [h3, hcalls]
    simp
  · rw [h4, hembeds]
    simp

/-- C9 amended witness: batch size 1; the provider embeds the first
question's batch but fails on the second question's batch, so the second
flush fails after the first batch persisted. -/
theorem C9_amended_witness :
    0 < 1 ∧
    (∀ c ∈ chunksOf 1 (keptDocs [qd1]), ∃ vs, e2 (c.map (·.title)) = some vs ∧
      vs.length = c.length) ∧
    (keptDocs [qd1]).length % 1 = 0 ∧
    keptDocs [qd2] ≠ [] ∧
    e2 (((keptDocs [qd2]).take 1).map (·.title)) = none ∧
    ((index_data e2 1 (([qd1] ++ [qd2]).map some) store0).2 =
        some IngestError.embedError ∧
      (index_data e2 1 (([qd1] ++ [qd2]).map some) store0).1.store.items.map (·.doc) =
        keptDocs [qd1] ∧
      (index_data e2 1 (([qd1] ++ [qd2]).map some) store0).1.calls.map
        (fun c => c.map (·.doc)) = chunksOf 1 (keptDocs [qd1]) ∧
      (index_data e2 1 (([qd1] ++ [qd2]).map some) store0).1.embeds =
        (chunksOf 1 (keptDocs [qd1])).map (fun c => c.map (·.title)) ++
          [((keptDocs [qd2]).take 1).map (·.title)]) := by
  have hch : chunksOf 1 (keptDocs [qd1]) = [[qd1]] := by
    rw [show keptDocs [qd1] = [qd1] from rfl, chunksOf_eq_cons 1 (by simp)]
    simp [chunksOf_nil]
  have hgood : ∀ c ∈ chunksOf 1 (keptDocs [qd1]), ∃ vs, e2 (c.map (·.title)) = some vs ∧
      vs.length = c.length := by
    intro c hc
    rw [hch] at hc
    simp only [List.mem_singleton] at hc
    subst hc
    exact ⟨[[1]], rfl, rfl⟩
  exact ⟨Nat.one_pos, hgood, rfl, by decide, rfl,
    C9_amended_embed_failure_fatal e2 1 Nat.one_pos [qd1] [qd2] store0 hgood rfl
      (by decide) rfl⟩

/-- C10: ingestion never invokes the provider or the bulk upsert with an
empty batch: every bulk call and every embedding call is nonempty, every
non-final bulk call carries exactly batchSize records, and a kept count
that is an exact multiple of batchSize yields exactly that many full
flushes and no trailing empty one. -/
theorem C10_no_empty_batches (e : Embedder) (B : Nat) (stream : List Doc)
    (s : Store) (he : EmbedOk e) (hB : 0 < B) :
    ∃ rs1, index_data e B (stream.map some) s = (rs1, none) ∧
      (∀ c ∈ rs1.calls, c ≠ []) ∧
      (∀ ts ∈ rs1.embeds, ts ≠ []) ∧
      (∀ c ∈ rs1.calls.dropLast, c.length = B) ∧
      ((keptDocs stream).length % B = 0 →
        rs1.calls.length = (keptDocs stream).length / B) := by
  obtain ⟨rs1, hrun, hitems, hcalls, hembeds⟩ := index_data_ok e B he hB stream s
  have hchunk_ne : ∀ c ∈ chunksOf B (keptDocs stream), c ≠ [] :=
    mem_chunksOf_ne_nil B hB (keptDocs stream).length (keptDocs stream) le_rfl
  refine ⟨rs1, hrun, ?_, ?_, ?_, ?_⟩
  · intro c hc
    have : c.map (·.doc) ∈ chunksOf B (keptDocs stream) := by
      rw [← hcalls]
      exact List.mem_map_of_mem _ hc
    intro hnil
    exact hchunk_ne _ this (by simp [hnil])
  · intro ts hts
    rw [hembeds] at hts
    obtain ⟨c, hcmem, hceq⟩ := List.mem_map.mp hts
    intro hnil
    have hmapnil : c.map (·.title) = [] := by
      rw [hceq, hnil]
    exact hchunk_ne c hcmem (List.map_eq_nil_iff.mp hmapnil)
  · intro c hc
    have hmap : (rs1.calls.dropLast).map (fun c => c.map (·.doc)) =
        (chunksOf B (keptDocs stream)).dropLast := by
      rw [← hcalls, List.map_dropLast]
    have : c.map (·.doc) ∈ (chunksOf B (keptDocs stream)).dropLast := by
      rw [← hmap]
      exact List.mem_map_of_mem _ hc
    have := chunksOf_dropLast B hB (keptDocs stream).length (keptDocs stream) le_rfl
      (c.map (·.doc)) this
    simpa using this
  · intro hmod
    have hdvd : B ∣ (keptDocs stream).length := Nat.dvd_of_mod_eq_zero hmod
    have hk : (keptDocs stream).length = B * ((keptDocs stream).length / B) :=
      (Nat.mul_div_cancel' hdvd).symm
    have hlen := chunksOf_length_mul B hB ((keptDocs stream).length / B)
      (keptDocs stream) hk
    calc rs1.calls.length = (rs1.calls.map (fun c => c.map (·.doc))).length := by simp
      _ = (chunksOf B (keptDocs stream)).length := by rw [hcalls]
      _ = (keptDocs stream).length / B := hlen

/-- C10 witness: batch size 2 over two questions and one answer: one full
flush, no trailing empty flush. -/
theorem C10_witness :
    EmbedOk e1 ∧ 0 < 2 ∧
    ∃ rs1, index_data e1 2 ([qd1, ad1, qd2].map some) store0 = (rs1, none) ∧
      (∀ c ∈ rs1.calls, c ≠ []) ∧
      (∀ ts ∈ rs1.embeds, ts ≠ []) ∧
      (∀ c ∈ rs1.calls.dropLast, c.length = 2) ∧
      ((keptDocs [qd1, ad1, qd2]).length % 2 = 0 →
        rs1.calls.length = (keptDocs [qd1, ad1, qd2]).length / 2) :=
  ⟨e1_ok, by omega, C10_no_empty_batches e1 2 [qd1, ad1, qd2] store0 e1_ok (by omega)⟩

end ES

